import Mathlib

set_option maxHeartbeats 1000000

/-!
Verification of the menu editor in `Practica 3/script.js`.

The forest `menuData` is a JS array of menu items; each item has numeric
field `id`, string fields `nombre`, `enlace`, `icon`, and an optional
array field `submenu` holding items of the same shape.  JS numbers used as
ids are modelled by `Int`; an absent `submenu` field is `none`, a present
(possibly empty) array is `some`.
-/

/-- A menu item as built by script.js: `{ id, nombre, enlace, icon, submenu? }`. -/
inductive MenuEntry : Type where
  | mk : Int → String → String → String → Option (List MenuEntry) → MenuEntry

/-- Field `item.id`. -/
def MenuEntry.id : MenuEntry → Int
  | .mk i _ _ _ _ => i

/-- Field `item.nombre`. -/
def MenuEntry.nombre : MenuEntry → String
  | .mk _ n _ _ _ => n

/-- Field `item.enlace`. -/
def MenuEntry.enlace : MenuEntry → String
  | .mk _ _ e _ _ => e

/-- Field `item.icon`. -/
def MenuEntry.icon : MenuEntry → String
  | .mk _ _ _ ic _ => ic

/-- Field `item.submenu` (`none` when the property is absent). -/
def MenuEntry.submenu : MenuEntry → Option (List MenuEntry)
  | .mk _ _ _ _ s => s

mutual

/-- `findById(id)` of script.js: depth-first search over the forest, each
item checked before its `submenu`, which is searched before later siblings;
returns the first match. -/
def findById (i : Int) : List MenuEntry → Option MenuEntry
  | [] => none
  | .mk j n e ic sub :: rest =>
    if j = i then some (.mk j n e ic sub)
    else
      match findInSub i sub with
      | some r => some r
      | none => findById i rest

/-- The `if (it.submenu) { const r = search(it.submenu); ... }` step of
`findById`: an absent submenu is skipped, a present one (even empty) is
searched. -/
def findInSub (i : Int) : Option (List MenuEntry) → Option MenuEntry
  | none => none
  | some l => findById i l

end

mutual

/-- The `check` closure of `nextId()`: threads the running `max` through one
item, first `if (item.id && item.id > max) max = item.id`, then recursing
into the submenu when `item.submenu && item.submenu.length` is truthy. -/
def checkEntry (e : MenuEntry) (m : Int) : Int :=
  match e with
  | .mk j _ _ _ sub =>
    let m1 := if j ≠ 0 ∧ m < j then j else m
    match sub with
    | none => m1
    | some l => if l.length ≠ 0 then checkList l m1 else m1

/-- `arr.forEach(check)`: folds `checkEntry` left to right. -/
def checkList (l : List MenuEntry) (m : Int) : Int :=
  match l with
  | [] => m
  | e :: rest => checkList rest (checkEntry e m)

end

/-- `nextId()` of script.js: `max` starts at 0, every item at every depth is
visited, and `max + 1` is returned. -/
def nextId (f : List MenuEntry) : Int :=
  checkList f 0 + 1

mutual

/-- The recursive `filterOut` helper of `deleteItem(id)`: keeps the items
whose id differs from `id` (filtering their submenus in place) and drops a
matching item together with its whole subtree. -/
def filterOut (i : Int) : List MenuEntry → List MenuEntry
  | [] => []
  | .mk j n e ic sub :: rest =>
    if j = i then filterOut i rest
    else .mk j n e ic (filterSub i sub) :: filterOut i rest

/-- The `if (it.submenu) it.submenu = filterOut(it.submenu)` step: an absent
submenu stays absent, a present one is filtered. -/
def filterSub (i : Int) : Option (List MenuEntry) → Option (List MenuEntry)
  | none => none
  | some l => some (filterOut i l)

end

/-- `deleteItem(id)` of script.js after the user confirms: replaces the
forest by `filterOut(menuData)`. -/
def deleteItem (i : Int) (f : List MenuEntry) : List MenuEntry :=
  filterOut i f

/-- JS line terminators: the characters that `.` in a regex without the `s`
flag does not match. -/
def isLineTerm (c : Char) : Bool :=
  c = '\n' ∨ c = '\r' ∨ c = ' ' ∨ c = ' '

/-- The trailing `.+` of the pattern of `validateUrl`, tested at the rest of
the input: since `test` does not anchor the end, it succeeds exactly when one
more character is available and is not a line terminator. -/
def dotPlus : List Char → Bool
  | [] => false
  | c :: _ => !(isLineTerm c)

/-- Match a literal lowercase-ASCII pattern at the front of the input under
the `i` flag: an input character matches iff its ASCII lowercasing equals the
pattern character (non-ASCII characters never canonicalize to ASCII). -/
def ciStrip : List Char → List Char → Option (List Char)
  | [], cs => some cs
  | _ :: _, [] => none
  | p :: ps, c :: cs => if c.toLower = p then ciStrip ps cs else none

/-- `validateUrl(url)` of script.js: `!url` rejects the empty string, then
`/^(\/|https?:\/\/).+/i.test(url)` tries the `/` alternative, then `https://`
and `http://` (ASCII case-insensitively), and requires `.+` to consume at
least one character after the prefix. -/
def validateUrl (url : String) : Bool :=
  if url = "" then false
  else
    match url.data with
    | '/' :: rest => dotPlus rest
    | cs =>
      match ciStrip "https://".data cs with
      | some rest => dotPlus rest
      | none =>
        match ciStrip "http://".data cs with
        | some rest => dotPlus rest
        | none => false

/-- Truthiness of `input.value ? Number(input.value) : null` as tested by
`if (editingId)` and `if (parentId)`: `null` and `0` are falsy. -/
def truthy : Option Int → Bool
  | none => false
  | some x => x ≠ 0

mutual

/-- The in-place mutation `parent.submenu = parent.submenu || [];
parent.submenu.push(newItem)` applied to the first item with id `p` in the
traversal order of `findById`; `none` when no item has id `p`. -/
def addChild (p : Int) (c : MenuEntry) : List MenuEntry → Option (List MenuEntry)
  | [] => none
  | .mk j n e ic sub :: rest =>
    if j = p then some (.mk j n e ic (some (sub.getD [] ++ [c])) :: rest)
    else
      match addChildSub p c sub with
      | some sub1 => some (.mk j n e ic (some sub1) :: rest)
      | none =>
        match addChild p c rest with
        | some rest1 => some (.mk j n e ic sub :: rest1)
        | none => none

/-- Submenu step of `addChild`: an absent submenu contains no item. -/
def addChildSub (p : Int) (c : MenuEntry) : Option (List MenuEntry) → Option (List MenuEntry)
  | none => none
  | some l => addChild p c l

end

mutual

/-- The in-place mutation `item.nombre = nombre; item.enlace = enlace;
item.icon = icono` applied to the first item with id `i` in the traversal
order of `findById`; `none` when no item has id `i`. -/
def updateItem (i : Int) (n e ic : String) : List MenuEntry → Option (List MenuEntry)
  | [] => none
  | .mk j n0 e0 ic0 sub :: rest =>
    if j = i then some (.mk j n e ic sub :: rest)
    else
      match updateItemSub i n e ic sub with
      | some sub1 => some (.mk j n0 e0 ic0 (some sub1) :: rest)
      | none =>
        match updateItem i n e ic rest with
        | some rest1 => some (.mk j n0 e0 ic0 sub :: rest1)
        | none => none

/-- Submenu step of `updateItem`: an absent submenu contains no item. -/
def updateItemSub (i : Int) (n e ic : String) : Option (List MenuEntry) → Option (List MenuEntry)
  | none => none
  | some l => updateItem i n e ic l

end

/-- Which branch of the submit handler ran, in place of the message shown by
`showMessage`. -/
inductive SubmitOutcome : Type where
  | nameRequired
  | badUrl
  | editNotFound
  | updated
  | addedParentMissing
  | added
deriving DecidableEq

/-- One run of the `menuForm` submit handler of script.js on the forest `f`.
`editingId` and `parentId` model `input.value ? Number(input.value) : null`;
`nombre`, `enlace`, `icono` are the trimmed text fields.  Returns the forest
after the handler and the branch taken; `addedParentMissing` is the branch
that shows the non-fatal parent-not-found warning. -/
def handleSubmit (f : List MenuEntry) (editingId : Option Int)
    (nombre enlace icono : String) (parentId : Option Int) :
    List MenuEntry × SubmitOutcome :=
  if nombre = "" then (f, .nameRequired)
  else if validateUrl enlace = false then (f, .badUrl)
  else if truthy editingId then
    match updateItem (editingId.getD 0) nombre enlace (if icono = "" then "" else icono) f with
    | none => (f, .editNotFound)
    | some f1 => (f1, .updated)
  else
    let newItem : MenuEntry := .mk (nextId f) nombre enlace (if icono = "" then "" else icono) none
    if truthy parentId then
      match addChild (parentId.getD 0) newItem f with
      | none => (f ++ [newItem], .addedParentMissing)
      | some f1 => (f1, .added)
    else (f ++ [newItem], .added)

mutual

/-- All ids in one entry: its own id, then the ids in its submenu. -/
def entryIds : MenuEntry → List Int
  | .mk j _ _ _ none => [j]
  | .mk j _ _ _ (some l) => j :: forestIds l

/-- All ids anywhere in the forest, in depth-first order. -/
def forestIds : List MenuEntry → List Int
  | [] => []
  | e :: rest => entryIds e ++ forestIds rest

end

/-- The item produced by `parent.submenu = parent.submenu || [];
parent.submenu.push(c)` on a given parent. -/
def MenuEntry.pushSub (par : MenuEntry) (c : MenuEntry) : MenuEntry :=
  match par with
  | .mk j n e ic sub => .mk j n e ic (some (sub.getD [] ++ [c]))

/-- Specification relation for the delete claim, written from the words of
the spec: the second forest is the first with exactly the items of id `i`
removed together with their own subtrees, while every sibling and unrelated
item is kept, in its original order, with its fields intact and its submenu
pruned the same way. -/
inductive DeleteShape (i : Int) : List MenuEntry → List MenuEntry → Prop where
  | nil : DeleteShape i [] []
  | drop (j : Int) (n e ic : String) (sub : Option (List MenuEntry))
      (rest rest1 : List MenuEntry) :
      j = i → DeleteShape i rest rest1 →
      DeleteShape i (.mk j n e ic sub :: rest) rest1
  | keepNone (j : Int) (n e ic : String) (rest rest1 : List MenuEntry) :
      j ≠ i → DeleteShape i rest rest1 →
      DeleteShape i (.mk j n e ic none :: rest) (.mk j n e ic none :: rest1)
  | keepSome (j : Int) (n e ic : String) (l l1 rest rest1 : List MenuEntry) :
      j ≠ i → DeleteShape i l l1 → DeleteShape i rest rest1 →
      DeleteShape i (.mk j n e ic (some l) :: rest) (.mk j n e ic (some l1) :: rest1)

/-- Specification relation for the update claim, written from the words of
the spec: the second forest is the first with exactly one item of id `i`
given the new `nombre`, `enlace` and `icon` values, its id and its submenu
untouched, while every other item of the forest, at every depth, is left
exactly as it was, in its original order. -/
inductive UpdateShape (i : Int) (n e ic : String) : List MenuEntry → List MenuEntry → Prop where
  | here (j : Int) (n0 e0 ic0 : String) (sub : Option (List MenuEntry))
      (rest : List MenuEntry) : j = i →
      UpdateShape i n e ic (.mk j n0 e0 ic0 sub :: rest) (.mk j n e ic sub :: rest)
  | inSub (j : Int) (n0 e0 ic0 : String) (l l1 rest : List MenuEntry) :
      UpdateShape i n e ic l l1 →
      UpdateShape i n e ic (.mk j n0 e0 ic0 (some l) :: rest)
        (.mk j n0 e0 ic0 (some l1) :: rest)
  | tail (x : MenuEntry) (rest rest1 : List MenuEntry) :
      UpdateShape i n e ic rest rest1 →
      UpdateShape i n e ic (x :: rest) (x :: rest1)

/-- A JSON value, standing for the text that `JSON.stringify` produces and
`JSON.parse` reads back; pretty-printing whitespace does not affect the
parsed value, so the text layer is represented by its parse tree. -/
inductive Json : Type where
  | num : Int → Json
  | str : String → Json
  | arr : List Json → Json
  | obj : List (String × Json) → Json

mutual

/-- `JSON.stringify` of one menu item: its own enumerable properties in
insertion order, the `submenu` key present exactly when the item has one. -/
def entryToJson : MenuEntry → Json
  | .mk j n e ic none =>
    .obj [("id", .num j), ("nombre", .str n), ("enlace", .str e), ("icon", .str ic)]
  | .mk j n e ic (some l) =>
    .obj [("id", .num j), ("nombre", .str n), ("enlace", .str e), ("icon", .str ic),
          ("submenu", .arr (menuToJson l))]

/-- `JSON.stringify` of the forest array. -/
def menuToJson : List MenuEntry → List Json
  | [] => []
  | e :: rest => entryToJson e :: menuToJson rest

end

/-- The document `{ menu: menuData }` built by `updateJsonView` and by the
export button handler before stringifying. -/
def serializeDoc (f : List MenuEntry) : Json :=
  .obj [("menu", .arr (menuToJson f))]

mutual

/-- Reading one menu item back from parsed JSON, by the shape the program
itself produces: the four scalar fields, and optionally a `submenu` array. -/
def jsonToEntry : Json → Option MenuEntry
  | .obj [("id", .num i), ("nombre", .str n), ("enlace", .str e), ("icon", .str ic)] =>
    some (.mk i n e ic none)
  | .obj [("id", .num i), ("nombre", .str n), ("enlace", .str e), ("icon", .str ic),
          ("submenu", .arr l)] =>
    match jsonToMenu l with
    | some m => some (.mk i n e ic (some m))
    | none => none
  | _ => none

/-- Reading a forest back from a parsed JSON array. -/
def jsonToMenu : List Json → Option (List MenuEntry)
  | [] => some []
  | j :: rest =>
    match jsonToEntry j with
    | some e =>
      match jsonToMenu rest with
      | some m => some (e :: m)
      | none => none
    | none => none

end

/-- Reading the exported document back: a `menu` property holding an array,
as adopted by `cargarMenu`. -/
def parseDoc : Json → Option (List MenuEntry)
  | .obj [("menu", .arr l)] => jsonToMenu l
  | _ => none

/-- Mutual induction over the nested type of menu items and forests. -/
theorem menuInduction (P : MenuEntry → Prop) (Q : List MenuEntry → Prop)
    (hnone : ∀ j n e ic, P (.mk j n e ic none))
    (hsome : ∀ j n e ic l, Q l → P (.mk j n e ic (some l)))
    (hnil : Q [])
    (hcons : ∀ x xs, P x → Q xs → Q (x :: xs)) :
    (∀ x, P x) ∧ (∀ xs, Q xs) := by
  have hx : ∀ x : MenuEntry, P x := by
    intro x
    induction x using MenuEntry.rec (motive_2 := fun o => ∀ l, o = some l → Q l)
        (motive_3 := Q) with
    | mk j n e ic o ih =>
      cases o with
      | none => exact hnone j n e ic
      | some l => exact hsome j n e ic l (ih l rfl)
    | none => simp_all
    | some l hl => simp_all
    | nil => exact hnil
    | cons x xs hx hxs => exact hcons x xs hx hxs
  refine ⟨hx, ?_⟩
  intro xs
  induction xs with
  | nil => exact hnil
  | cons x xs ih => exact hcons x xs (hx x) ih

/-- Searching a one-step larger forest first searches the head item (and its
submenu), then the tail. -/
theorem findById_cons (i : Int) (x : MenuEntry) (xs : List MenuEntry) :
    findById i (x :: xs) =
      match findById i [x] with
      | some r => some r
      | none => findById i xs := by
  cases x with
  | mk j n e ic sub =>
    by_cases hj : j = i <;> simp only [findById, findInSub, hj, if_true, if_false, ite_true,
      ite_false, reduceIte] <;> cases h : findInSub i sub <;> simp [h, findById]

/-- `findById` over a concatenation searches the left part first. -/
theorem findById_append (i : Int) (l1 l2 : List MenuEntry) :
    findById i (l1 ++ l2) =
      match findById i l1 with
      | some r => some r
      | none => findById i l2 := by
  induction l1 with
  | nil => simp [findById]
  | cons x xs ih =>
    rw [List.cons_append, findById_cons, findById_cons i x xs]
    cases h : findById i [x] <;> simp [h, ih]

/-- `findById` misses exactly the ids that occur nowhere in the forest. -/
theorem findById_eq_none_iff (i : Int) :
    (∀ x : MenuEntry, findById i [x] = none ↔ i ∉ entryIds x) ∧
    (∀ l : List MenuEntry, findById i l = none ↔ i ∉ forestIds l) := by
  apply menuInduction
  · intro j n e ic
    by_cases hj : j = i <;> simp [findById, findInSub, entryIds, hj] <;> omega
  · intro j n e ic l hl
    have heq : findById i [MenuEntry.mk j n e ic (some l)] =
        if j = i then some (.mk j n e ic (some l)) else findById i l := by
      by_cases hj : j = i <;> cases h : findById i l <;>
        simp [findById, findInSub, hj, h]
    rw [heq]
    by_cases hj : j = i
    · subst hj
      simp [entryIds]
    · simp only [hj, ite_false, entryIds, List.mem_cons]
      rw [hl]
      constructor
      · intro hnotin
        rintro (h1 | hmem)
        · exact hj h1.symm
        · exact hnotin hmem
      · intro hni hmem
        exact hni (Or.inr hmem)
  · simp [findById, forestIds]
  · intro x xs hx hxs
    rw [findById_cons]
    simp only [forestIds, List.mem_append]
    cases h : findById i [x] with
    | none =>
      have hnx : i ∉ entryIds x := hx.mp h
      simp [hxs, hnx]
    | some r =>
      have hmx : i ∈ entryIds x := by
        by_contra hc
        rw [← hx] at hc
        simp [h] at hc
      simp [hmx]

/-- A left fold of `max` never goes below its seed. -/
theorem le_foldl_max (l : List Int) : ∀ m : Int, m ≤ l.foldl max m := by
  induction l with
  | nil => intro m; simp
  | cons x xs ih =>
    intro m
    calc m ≤ max m x := le_max_left m x
    _ ≤ xs.foldl max (max m x) := ih (max m x)
    _ = (x :: xs).foldl max m := by simp [List.foldl_cons]

/-- A left fold of `max` dominates every element. -/
theorem mem_le_foldl_max (l : List Int) : ∀ m x : Int, x ∈ l → x ≤ l.foldl max m := by
  induction l with
  | nil => intro m x hx; cases hx
  | cons y ys ih =>
    intro m x hx
    rcases List.mem_cons.mp hx with h | h
    · subst h
      calc x ≤ max m x := le_max_right m x
      _ ≤ ys.foldl max (max m x) := le_foldl_max ys (max m x)
      _ = (x :: ys).foldl max m := by simp [List.foldl_cons]
    · exact ih (max m y) x h

/-- The `max`-threading of `nextId` computes the fold of `max` over all ids,
at every depth, as long as the running value is nonnegative. -/
theorem checkList_eq_foldl :
    (∀ x : MenuEntry, ∀ m : Int, 0 ≤ m → checkEntry x m = (entryIds x).foldl max m) ∧
    (∀ l : List MenuEntry, ∀ m : Int, 0 ≤ m → checkList l m = (forestIds l).foldl max m) := by
  apply menuInduction
  · intro j n e ic m hm
    simp only [checkEntry, entryIds, List.foldl_cons, List.foldl_nil]
    rcases le_or_lt j m with h | h
    · have h1 : ¬ (j ≠ 0 ∧ m < j) := by omega
      have h2 : max m j = m := max_eq_left h
      simp [h1, h2]
    · have h1 : j ≠ 0 ∧ m < j := by omega
      have h2 : max m j = j := max_eq_right (le_of_lt h)
      simp [h1, h2]
  · intro j n e ic l hl m hm
    simp only [checkEntry, entryIds, List.foldl_cons]
    have hmax : (if j ≠ 0 ∧ m < j then j else m) = max m j := by
      rcases le_or_lt j m with h | h
      · have h1 : ¬ (j ≠ 0 ∧ m < j) := by omega
        simp [h1, max_eq_left h]
      · have h1 : j ≠ 0 ∧ m < j := by omega
        simp [h1, max_eq_right (le_of_lt h)]
    rw [hmax]
    cases l with
    | nil => simp [forestIds]
    | cons y ys =>
      have h1 := hl (max m j) (le_trans hm (le_max_left m j))
      split
      · exact h1
      · simp_all
  · intro m hm; simp [checkList, forestIds]
  · intro x xs hx hxs m hm
    simp only [checkList, forestIds, List.foldl_append]
    rw [hx m hm, hxs]
    calc (0 : Int) ≤ m := hm
    _ ≤ (entryIds x).foldl max m := le_foldl_max (entryIds x) m

/-- `nextId` computes one plus the fold of `max` over 0 and all ids. -/
theorem nextId_eq_foldl (f : List MenuEntry) :
    nextId f = (forestIds f).foldl max 0 + 1 := by
  unfold nextId
  rw [checkList_eq_foldl.2 f 0 le_rfl]

/-- C3 (amended): for every forest, `nextId` returns one plus the maximum of
0 and every id existing anywhere in the forest (all depths); in particular it
returns the maximum id plus one whenever the maximum id is nonnegative, and
returns 1 for an empty forest. -/
theorem nextId_max_plus_one (f : List MenuEntry) :
    nextId f = (forestIds f).foldl max 0 + 1 :=
  nextId_eq_foldl f

/-- Witness for `nextId_max_plus_one` at a two-level forest. -/
theorem nextId_max_plus_one_witness :
    nextId [MenuEntry.mk 1 "a" "/a" "" (some [MenuEntry.mk 7 "b" "/b" "" none])] =
      (forestIds [MenuEntry.mk 1 "a" "/a" "" (some [MenuEntry.mk 7 "b" "/b" "" none])]).foldl
        max 0 + 1 :=
  nextId_max_plus_one [MenuEntry.mk 1 "a" "/a" "" (some [MenuEntry.mk 7 "b" "/b" "" none])]

/-- C3 counterexample: in the forest whose only item has id `-1`, the maximum
id existing anywhere in the forest is `-1`, yet `nextId` returns `1` and not
`-1 + 1 = 0`. -/
theorem nextId_counterexample :
    forestIds [MenuEntry.mk (-1) "a" "/a" "" none] = [-1] ∧
    nextId [MenuEntry.mk (-1) "a" "/a" "" none] = 1 ∧
    (1 : Int) ≠ -1 + 1 := by
  refine ⟨rfl, ?_, by decide⟩
  rfl

/-- The allocated id occurs nowhere in the forest. -/
theorem findById_nextId_none (f : List MenuEntry) : findById (nextId f) f = none := by
  rw [(findById_eq_none_iff (nextId f)).2 f]
  intro hmem
  have h1 := mem_le_foldl_max (forestIds f) 0 (nextId f) hmem
  have h2 := nextId_eq_foldl f
  omega

/-- C4: for every forest, empty or not and at every depth, the id allocated
by `nextId` is not already in use: `findById (nextId f) f` is not-found. -/
theorem nextId_fresh (f : List MenuEntry) : findById (nextId f) f = none :=
  findById_nextId_none f

/-- Ids of a concatenated forest. -/
theorem forestIds_append (l1 l2 : List MenuEntry) :
    forestIds (l1 ++ l2) = forestIds l1 ++ forestIds l2 := by
  induction l1 with
  | nil => simp [forestIds]
  | cons x xs ih => simp [forestIds, ih]

/-- `filterOut` acts independently on the head item and the tail. -/
theorem filterOut_cons (i : Int) (x : MenuEntry) (xs : List MenuEntry) :
    filterOut i (x :: xs) = filterOut i [x] ++ filterOut i xs := by
  cases x with
  | mk j n e ic sub => by_cases hj : j = i <;> simp [filterOut, hj]

/-- No id equal to the deleted one survives `filterOut`, at any depth. -/
theorem filterOut_removes (i : Int) :
    (∀ x : MenuEntry, i ∉ forestIds (filterOut i [x])) ∧
    (∀ l : List MenuEntry, i ∉ forestIds (filterOut i l)) := by
  apply menuInduction
  · intro j n e ic
    by_cases hj : j = i <;> simp [filterOut, filterSub, forestIds, entryIds, hj] <;> omega
  · intro j n e ic l hl
    by_cases hj : j = i
    · simp [filterOut, hj, forestIds]
    · simp only [filterOut, filterSub, hj, ite_false, forestIds, entryIds,
        List.append_nil, List.mem_cons]
      rintro (h1 | h2)
      · exact hj h1.symm
      · exact hl h2
  · simp [filterOut, forestIds]
  · intro x xs hx hxs
    rw [filterOut_cons, forestIds_append]
    simp only [List.mem_append]
    rintro (h | h)
    · exact hx h
    · exact hxs h

/-- When the id occurs nowhere, `filterOut` keeps the forest intact. -/
theorem filterOut_noop (i : Int) :
    (∀ x : MenuEntry, i ∉ entryIds x → filterOut i [x] = [x]) ∧
    (∀ l : List MenuEntry, i ∉ forestIds l → filterOut i l = l) := by
  apply menuInduction
  · intro j n e ic h
    simp only [entryIds, List.mem_singleton] at h
    have hj : j ≠ i := fun hc => h hc.symm
    simp [filterOut, filterSub, hj]
  · intro j n e ic l hl h
    simp only [entryIds, List.mem_cons] at h
    push_neg at h
    have hj : j ≠ i := fun hc => h.1 hc.symm
    simp [filterOut, filterSub, hj, hl h.2]
  · intro _; simp [filterOut]
  · intro x xs hx hxs h
    rw [forestIds, List.mem_append] at h
    push_neg at h
    rw [filterOut_cons, hx h.1, hxs h.2]
    rfl

/-- `filterOut` realizes the delete specification `DeleteShape`. -/
theorem filterOut_shape (i : Int) :
    (∀ x : MenuEntry, ∀ l, x.submenu = some l → DeleteShape i l (filterOut i l)) ∧
    (∀ l : List MenuEntry, DeleteShape i l (filterOut i l)) := by
  apply menuInduction
  · intro j n e ic l h
    simp [MenuEntry.submenu] at h
  · intro j n e ic l hl l2 h
    simp only [MenuEntry.submenu, Option.some.injEq] at h
    subst h
    exact hl
  · rw [show filterOut i ([] : List MenuEntry) = [] by simp [filterOut]]
    exact DeleteShape.nil
  · intro x xs hx hxs
    cases x with
    | mk j n e ic sub =>
      by_cases hj : j = i
      · rw [show filterOut i (MenuEntry.mk j n e ic sub :: xs) = filterOut i xs by
          simp [filterOut, hj]]
        exact DeleteShape.drop j n e ic sub xs (filterOut i xs) hj hxs
      · cases sub with
        | none =>
          rw [show filterOut i (MenuEntry.mk j n e ic none :: xs) =
              MenuEntry.mk j n e ic none :: filterOut i xs by simp [filterOut, filterSub, hj]]
          exact DeleteShape.keepNone j n e ic xs (filterOut i xs) hj hxs
        | some l =>
          rw [show filterOut i (MenuEntry.mk j n e ic (some l) :: xs) =
              MenuEntry.mk j n e ic (some (filterOut i l)) :: filterOut i xs by
            simp [filterOut, filterSub, hj]]
          exact DeleteShape.keepSome j n e ic l (filterOut i l) xs (filterOut i xs) hj
            (hx l rfl) hxs

/-- C1: for every forest and every id, after `deleteItem` a subsequent
`findById` of that id is not-found; the deletion removes exactly the matching
items together with their own subtrees while keeping every sibling and
unrelated item, in its original order (`DeleteShape`); and when no item with
that id exists the forest is returned unchanged. -/
theorem deleteById_spec (f : List MenuEntry) (i : Int) :
    findById i (deleteItem i f) = none ∧
    DeleteShape i f (deleteItem i f) ∧
    (findById i f = none → deleteItem i f = f) := by
  refine ⟨?_, (filterOut_shape i).2 f, ?_⟩
  · rw [deleteItem, (findById_eq_none_iff i).2]
    exact (filterOut_removes i).2 f
  · intro h
    rw [deleteItem]
    exact (filterOut_noop i).2 f (((findById_eq_none_iff i).2 f).mp h)

/-- Witness for `deleteById_spec`: deleting id 2 inside a submenu, and the
no-op case for the absent id 9. -/
theorem deleteById_spec_witness :
    findById 2 (deleteItem 2
      [MenuEntry.mk 1 "a" "/a" ""
        (some [MenuEntry.mk 2 "b" "/b" "" none, MenuEntry.mk 3 "c" "/c" "" none])]) = none ∧
    deleteItem 9 [MenuEntry.mk 1 "a" "/a" "" none] = [MenuEntry.mk 1 "a" "/a" "" none] := by
  constructor
  · exact (deleteById_spec
      [MenuEntry.mk 1 "a" "/a" ""
        (some [MenuEntry.mk 2 "b" "/b" "" none, MenuEntry.mk 3 "c" "/c" "" none])] 2).1
  · exact (deleteById_spec [MenuEntry.mk 1 "a" "/a" "" none] 9).2.2
      (by simp [findById, findInSub])

/-- `addChild` fails exactly when `findById` fails on the parent id. -/
theorem addChild_none_iff (p : Int) (c : MenuEntry) :
    (∀ x : MenuEntry, addChildSub p c x.submenu = none ↔ findInSub p x.submenu = none) ∧
    (∀ l : List MenuEntry, addChild p c l = none ↔ findById p l = none) := by
  apply menuInduction
  · intro j n e ic
    simp [MenuEntry.submenu, addChildSub, findInSub]
  · intro j n e ic l hl
    simpa [MenuEntry.submenu, addChildSub, findInSub] using hl
  · simp [addChild, findById]
  · intro x xs hx hxs
    cases x with
    | mk j n e ic sub =>
      simp only [MenuEntry.submenu] at hx
      by_cases hj : j = p
      · constructor
        · intro h
          rw [addChild, if_pos hj] at h
          cases h
        · intro h
          rw [show findById p (MenuEntry.mk j n e ic sub :: xs) =
              some (.mk j n e ic sub) by simp [findById, hj]] at h
          cases h
      · rw [show findById p (MenuEntry.mk j n e ic sub :: xs) =
            (match findInSub p sub with
             | some r => some r
             | none => findById p xs) by simp [findById, hj]]
        rw [show addChild p c (MenuEntry.mk j n e ic sub :: xs) =
            (match addChildSub p c sub with
             | some sub1 => some (.mk j n e ic (some sub1) :: xs)
             | none =>
               match addChild p c xs with
               | some rest1 => some (.mk j n e ic sub :: rest1)
               | none => none) by simp [addChild, hj]]
        cases h1 : addChildSub p c sub with
        | some s1 =>
          have h2 : findInSub p sub ≠ none := by
            intro hc
            rw [← hx] at hc
            rw [h1] at hc
            cases hc
          cases h3 : findInSub p sub with
          | some r => simp
          | none => exact absurd h3 h2
        | none =>
          have h2 : findInSub p sub = none := hx.mp h1
          cases h3 : addChild p c xs with
          | some r1 =>
            have h4 : findById p xs ≠ none := by
              intro hc
              rw [← hxs, h3] at hc
              cases hc
            simp [h1, h2, h3, h4]
          | none => simp [h1, h2, h3, hxs.mp h3]

/-- When the parent id resolves, `addChild` succeeds, and looking the parent
up afterwards returns the old parent with the child appended at the end of
its (created if absent) submenu. -/
theorem addChild_found (p : Int) (c : MenuEntry) :
    (∀ x : MenuEntry, ∀ l par, x.submenu = some l → findById p l = some par →
      ∃ l1, addChild p c l = some l1 ∧ findById p l1 = some (par.pushSub c)) ∧
    (∀ l : List MenuEntry, ∀ par, findById p l = some par →
      ∃ l1, addChild p c l = some l1 ∧ findById p l1 = some (par.pushSub c)) := by
  apply menuInduction
  · intro j n e ic l par h
    simp [MenuEntry.submenu] at h
  · intro j n e ic l hl l2 par h hfind
    simp only [MenuEntry.submenu, Option.some.injEq] at h
    subst h
    exact hl par hfind
  · intro par h
    simp [findById] at h
  · intro x xs hx hxs par hfind
    cases x with
    | mk j n e ic sub =>
      simp only [MenuEntry.submenu] at hx
      by_cases hj : j = p
      · have hpar : MenuEntry.mk j n e ic sub = par := by
          have h0 := hfind
          rw [show findById p (MenuEntry.mk j n e ic sub :: xs) =
              some (.mk j n e ic sub) by simp [findById, hj]] at h0
          exact Option.some_inj.mp h0
        refine ⟨MenuEntry.mk j n e ic (some (sub.getD [] ++ [c])) :: xs, ?_, ?_⟩
        · simp [addChild, hj]
        · rw [← hpar]
          simp [findById, hj, MenuEntry.pushSub]
      · cases sub with
        | none =>
          have hfind2 : findById p xs = some par := by
            simpa [findById, findInSub, hj] using hfind
          obtain ⟨rest1, ha, hf⟩ := hxs par hfind2
          refine ⟨MenuEntry.mk j n e ic none :: rest1, ?_, ?_⟩
          · simp [addChild, addChildSub, hj, ha]
          · simp [findById, findInSub, hj, hf]
        | some sl =>
          have hsplit : findById p (MenuEntry.mk j n e ic (some sl) :: xs) =
              (match findById p sl with
               | some r2 => some r2
               | none => findById p xs) := by
            simp [findById, findInSub, hj]
          cases hsub : findById p sl with
          | some r =>
            have hpar : r = par := by
              have h0 := hfind
              rw [hsplit, hsub] at h0
              exact Option.some_inj.mp h0
            obtain ⟨l1, ha, hf⟩ := hx sl par rfl (hpar ▸ hsub)
            refine ⟨MenuEntry.mk j n e ic (some l1) :: xs, ?_, ?_⟩
            · simp [addChild, addChildSub, hj, ha]
            · simp [findById, findInSub, hj, hf]
          | none =>
            have hfind2 : findById p xs = some par := by
              have h0 := hfind
              rw [hsplit, hsub] at h0
              exact h0
            obtain ⟨rest1, ha, hf⟩ := hxs par hfind2
            have hnone : addChild p c sl = none := ((addChild_none_iff p c).2 sl).mpr hsub
            refine ⟨MenuEntry.mk j n e ic (some sl) :: rest1, ?_, ?_⟩
            · simp [addChild, addChildSub, hj, hnone, ha]
            · simp [findById, findInSub, hj, hsub, hf]

/-- After a successful `addChild` whose child id occurs nowhere in the
original forest, looking the child id up finds exactly the inserted child. -/
theorem addChild_finds_child (p : Int) (c : MenuEntry) :
    (∀ x : MenuEntry, ∀ l l1, x.submenu = some l → addChild p c l = some l1 →
      MenuEntry.id c ∉ forestIds l → findById (MenuEntry.id c) l1 = some c) ∧
    (∀ l : List MenuEntry, ∀ l1, addChild p c l = some l1 →
      MenuEntry.id c ∉ forestIds l → findById (MenuEntry.id c) l1 = some c) := by
  apply menuInduction
  · intro j n e ic l l1 h
    simp [MenuEntry.submenu] at h
  · intro j n e ic l hl l2 l1 h
    simp only [MenuEntry.submenu, Option.some.injEq] at h
    subst h
    exact hl l1
  · intro l1 h
    simp [addChild] at h
  · intro x xs hx hxs l1 hadd hfresh
    cases x with
    | mk j n e ic sub =>
      simp only [MenuEntry.submenu] at hx
      have hfr : MenuEntry.id c ∉ entryIds (MenuEntry.mk j n e ic sub) ∧
          MenuEntry.id c ∉ forestIds xs := by
        simp only [forestIds, List.mem_append] at hfresh
        push_neg at hfresh
        exact hfresh
      have hcj : MenuEntry.id c ≠ j := by
        intro hc
        apply hfr.1
        cases sub with
        | none => simp [entryIds, hc]
        | some sl => simp [entryIds, hc]
      have hjc : ¬ j = MenuEntry.id c := fun h => hcj h.symm
      by_cases hj : j = p
      · rw [show addChild p c (MenuEntry.mk j n e ic sub :: xs) =
            some (.mk j n e ic (some (sub.getD [] ++ [c])) :: xs) by
          simp [addChild, hj]] at hadd
        have h1 : l1 = MenuEntry.mk j n e ic (some (sub.getD [] ++ [c])) :: xs :=
          (Option.some_inj.mp hadd).symm
        subst h1
        have hsubfresh : findById (MenuEntry.id c) (sub.getD []) = none := by
          apply ((findById_eq_none_iff (MenuEntry.id c)).2 _).mpr
          cases sub with
          | none => simp [forestIds]
          | some sl =>
            intro hmem
            apply hfr.1
            simp only [Option.getD] at hmem
            simp only [entryIds, List.mem_cons]
            exact Or.inr hmem
        rw [show findById (MenuEntry.id c)
              (MenuEntry.mk j n e ic (some (sub.getD [] ++ [c])) :: xs) =
            (match findById (MenuEntry.id c) (sub.getD [] ++ [c]) with
             | some r => some r
             | none => findById (MenuEntry.id c) xs) by simp [findById, findInSub, hjc]]
        rw [findById_append, hsubfresh]
        cases c with
        | mk ci cn ce cic csub => simp [findById, MenuEntry.id]
      · rw [show addChild p c (MenuEntry.mk j n e ic sub :: xs) =
            (match addChildSub p c sub with
             | some sub1 => some (.mk j n e ic (some sub1) :: xs)
             | none =>
               match addChild p c xs with
               | some rest1 => some (.mk j n e ic sub :: rest1)
               | none => none) by simp [addChild, hj]] at hadd
        cases h1 : addChildSub p c sub with
        | some sub1 =>
          rw [h1] at hadd
          have h2 : l1 = MenuEntry.mk j n e ic (some sub1) :: xs :=
            (Option.some_inj.mp hadd).symm
          subst h2
          cases sub with
          | none => simp [addChildSub] at h1
          | some sl =>
            have h3 : addChild p c sl = some sub1 := by simpa [addChildSub] using h1
            have hfr2 : MenuEntry.id c ∉ forestIds sl := by
              intro hm
              apply hfr.1
              simp only [entryIds, List.mem_cons]
              exact Or.inr hm
            have h4 := hx sl sub1 rfl h3 hfr2
            simp [findById, findInSub, hjc, h4]
        | none =>
          rw [h1] at hadd
          cases h5 : addChild p c xs with
          | none => rw [h5] at hadd; cases hadd
          | some rest1 =>
            rw [h5] at hadd
            have h2 : l1 = MenuEntry.mk j n e ic sub :: rest1 :=
              (Option.some_inj.mp hadd).symm
            subst h2
            have h6 := hxs rest1 h5 hfr.2
            have h7 : findInSub (MenuEntry.id c) sub = none := by
              cases sub with
              | none => simp [findInSub]
              | some sl =>
                have hm : MenuEntry.id c ∉ forestIds sl := by
                  intro hm0
                  apply hfr.1
                  simp only [entryIds, List.mem_cons]
                  exact Or.inr hm0
                simpa [findInSub] using ((findById_eq_none_iff _).2 sl).mpr hm
            simp [findById, findInSub, hjc, h7, h6]

/-- `updateItem` fails exactly when `findById` fails on the edited id. -/
theorem updateItem_none_iff (i : Int) (n e ic : String) :
    (∀ x : MenuEntry,
      updateItemSub i n e ic x.submenu = none ↔ findInSub i x.submenu = none) ∧
    (∀ l : List MenuEntry, updateItem i n e ic l = none ↔ findById i l = none) := by
  apply menuInduction
  · intro j n0 e0 ic0
    simp [MenuEntry.submenu, updateItemSub, findInSub]
  · intro j n0 e0 ic0 l hl
    simpa [MenuEntry.submenu, updateItemSub, findInSub] using hl
  · simp [updateItem, findById]
  · intro x xs hx hxs
    cases x with
    | mk j n0 e0 ic0 sub =>
      simp only [MenuEntry.submenu] at hx
      by_cases hj : j = i
      · constructor
        · intro h
          rw [updateItem, if_pos hj] at h
          cases h
        · intro h
          rw [show findById i (MenuEntry.mk j n0 e0 ic0 sub :: xs) =
              some (.mk j n0 e0 ic0 sub) by simp [findById, hj]] at h
          cases h
      · rw [show findById i (MenuEntry.mk j n0 e0 ic0 sub :: xs) =
            (match findInSub i sub with
             | some r => some r
             | none => findById i xs) by simp [findById, hj]]
        rw [show updateItem i n e ic (MenuEntry.mk j n0 e0 ic0 sub :: xs) =
            (match updateItemSub i n e ic sub with
             | some sub1 => some (.mk j n0 e0 ic0 (some sub1) :: xs)
             | none =>
               match updateItem i n e ic xs with
               | some rest1 => some (.mk j n0 e0 ic0 sub :: rest1)
               | none => none) by simp [updateItem, hj]]
        cases h1 : updateItemSub i n e ic sub with
        | some s1 =>
          have h2 : findInSub i sub ≠ none := by
            intro hc
            rw [← hx] at hc
            rw [h1] at hc
            cases hc
          cases h3 : findInSub i sub with
          | some r => simp
          | none => exact absurd h3 h2
        | none =>
          have h2 : findInSub i sub = none := hx.mp h1
          cases h3 : updateItem i n e ic xs with
          | some r1 =>
            have h4 : findById i xs ≠ none := by
              intro hc
              rw [← hxs, h3] at hc
              cases hc
            simp [h1, h2, h3, h4]
          | none => simp [h1, h2, h3, hxs.mp h3]

/-- When the edited id resolves, `updateItem` succeeds, and looking the id up
afterwards returns the item with the new `nombre`, `enlace` and `icon`, the
same id, and its submenu untouched. -/
theorem updateItem_found (i : Int) (n e ic : String) :
    (∀ x : MenuEntry, ∀ l par, x.submenu = some l → findById i l = some par →
      ∃ l1, updateItem i n e ic l = some l1 ∧
        findById i l1 = some (.mk i n e ic (MenuEntry.submenu par))) ∧
    (∀ l : List MenuEntry, ∀ par, findById i l = some par →
      ∃ l1, updateItem i n e ic l = some l1 ∧
        findById i l1 = some (.mk i n e ic (MenuEntry.submenu par))) := by
  apply menuInduction
  · intro j n0 e0 ic0 l par h
    simp [MenuEntry.submenu] at h
  · intro j n0 e0 ic0 l hl l2 par h hfind
    simp only [MenuEntry.submenu, Option.some.injEq] at h
    subst h
    exact hl par hfind
  · intro par h
    simp [findById] at h
  · intro x xs hx hxs par hfind
    cases x with
    | mk j n0 e0 ic0 sub =>
      simp only [MenuEntry.submenu] at hx
      by_cases hj : j = i
      · have hpar : MenuEntry.mk j n0 e0 ic0 sub = par := by
          have h0 := hfind
          rw [show findById i (MenuEntry.mk j n0 e0 ic0 sub :: xs) =
              some (.mk j n0 e0 ic0 sub) by simp [findById, hj]] at h0
          exact Option.some_inj.mp h0
        refine ⟨MenuEntry.mk j n e ic sub :: xs, ?_, ?_⟩
        · simp [updateItem, hj]
        · rw [← hpar]
          simp [findById, hj, MenuEntry.submenu]
      · cases sub with
        | none =>
          have hfind2 : findById i xs = some par := by
            simpa [findById, findInSub, hj] using hfind
          obtain ⟨rest1, ha, hf⟩ := hxs par hfind2
          refine ⟨MenuEntry.mk j n0 e0 ic0 none :: rest1, ?_, ?_⟩
          · simp [updateItem, updateItemSub, hj, ha]
          · simp [findById, findInSub, hj, hf]
        | some sl =>
          have hsplit : findById i (MenuEntry.mk j n0 e0 ic0 (some sl) :: xs) =
              (match findById i sl with
               | some r2 => some r2
               | none => findById i xs) := by
            simp [findById, findInSub, hj]
          cases hsub : findById i sl with
          | some r =>
            have hpar : r = par := by
              have h0 := hfind
              rw [hsplit, hsub] at h0
              exact Option.some_inj.mp h0
            obtain ⟨l1, ha, hf⟩ := hx sl par rfl (hpar ▸ hsub)
            refine ⟨MenuEntry.mk j n0 e0 ic0 (some l1) :: xs, ?_, ?_⟩
            · simp [updateItem, updateItemSub, hj, ha]
            · cases par with
              | mk pa pb pc pd ps => simp [findById, findInSub, hj, hf, MenuEntry.submenu]
          | none =>
            have hfind2 : findById i xs = some par := by
              have h0 := hfind
              rw [hsplit, hsub] at h0
              exact h0
            obtain ⟨rest1, ha, hf⟩ := hxs par hfind2
            have hnone : updateItem i n e ic sl = none :=
              ((updateItem_none_iff i n e ic).2 sl).mpr hsub
            refine ⟨MenuEntry.mk j n0 e0 ic0 (some sl) :: rest1, ?_, ?_⟩
            · simp [updateItem, updateItemSub, hj, hnone, ha]
            · simp [findById, findInSub, hj, hsub, hf]

/-- A successful `updateItem` realizes the update specification
`UpdateShape`: one matching item gets the new scalar fields, everything else
is untouched. -/
theorem updateItem_realizes_shape (i : Int) (n e ic : String) :
    (∀ x : MenuEntry, ∀ l l1, x.submenu = some l → updateItem i n e ic l = some l1 →
      UpdateShape i n e ic l l1) ∧
    (∀ l : List MenuEntry, ∀ l1, updateItem i n e ic l = some l1 →
      UpdateShape i n e ic l l1) := by
  apply menuInduction
  · intro j n0 e0 ic0 l l1 h
    simp [MenuEntry.submenu] at h
  · intro j n0 e0 ic0 l hl l2 l1 h
    simp only [MenuEntry.submenu, Option.some.injEq] at h
    subst h
    exact hl l1
  · intro l1 h
    simp [updateItem] at h
  · intro x xs hx hxs l1 hupd
    cases x with
    | mk j n0 e0 ic0 sub =>
      simp only [MenuEntry.submenu] at hx
      by_cases hj : j = i
      · rw [show updateItem i n e ic (MenuEntry.mk j n0 e0 ic0 sub :: xs) =
            some (.mk j n e ic sub :: xs) by simp [updateItem, hj]] at hupd
        have h1 : l1 = MenuEntry.mk j n e ic sub :: xs := (Option.some_inj.mp hupd).symm
        subst h1
        exact UpdateShape.here j n0 e0 ic0 sub xs hj
      · rw [show updateItem i n e ic (MenuEntry.mk j n0 e0 ic0 sub :: xs) =
            (match updateItemSub i n e ic sub with
             | some sub1 => some (.mk j n0 e0 ic0 (some sub1) :: xs)
             | none =>
               match updateItem i n e ic xs with
               | some rest1 => some (.mk j n0 e0 ic0 sub :: rest1)
               | none => none) by simp [updateItem, hj]] at hupd
        cases h1 : updateItemSub i n e ic sub with
        | some sub1 =>
          rw [h1] at hupd
          have h2 : l1 = MenuEntry.mk j n0 e0 ic0 (some sub1) :: xs :=
            (Option.some_inj.mp hupd).symm
          subst h2
          cases sub with
          | none => simp [updateItemSub] at h1
          | some sl =>
            have h3 : updateItem i n e ic sl = some sub1 := by
              simpa [updateItemSub] using h1
            exact UpdateShape.inSub j n0 e0 ic0 sl sub1 xs (hx sl sub1 rfl h3)
        | none =>
          rw [h1] at hupd
          cases h5 : updateItem i n e ic xs with
          | none => rw [h5] at hupd; cases hupd
          | some rest1 =>
            rw [h5] at hupd
            have h2 : l1 = MenuEntry.mk j n0 e0 ic0 sub :: rest1 :=
              (Option.some_inj.mp hupd).symm
            subst h2
            exact UpdateShape.tail _ xs rest1 (hxs rest1 h5)

/-- C7: a submit with an empty label or a malformed href is rejected before
any mutation: the forest is exactly the same after the failed submit, on the
create path and on the edit path alike, and a validation outcome is shown. -/
theorem submit_validation_atomic (f : List MenuEntry) (eid : Option Int)
    (nombre enlace icono : String) (pid : Option Int)
    (h : nombre = "" ∨ validateUrl enlace = false) :
    (handleSubmit f eid nombre enlace icono pid).1 = f ∧
    ((handleSubmit f eid nombre enlace icono pid).2 = SubmitOutcome.nameRequired ∨
     (handleSubmit f eid nombre enlace icono pid).2 = SubmitOutcome.badUrl) := by
  rcases h with h | h
  · simp [handleSubmit, h]
  · by_cases hn : nombre = ""
    · simp [handleSubmit, hn]
    · simp [handleSubmit, hn, h]

/-- Witness for `submit_validation_atomic`: an empty label on the edit path
and a malformed href on the create path both leave the forest intact. -/
theorem submit_validation_atomic_witness :
    (handleSubmit [MenuEntry.mk 1 "a" "/a" "" none] (some 1) "" "/b" "" none).1 =
      [MenuEntry.mk 1 "a" "/a" "" none] ∧
    (handleSubmit [MenuEntry.mk 1 "a" "/a" "" none] none "b" "nota-url" "" none).1 =
      [MenuEntry.mk 1 "a" "/a" "" none] := by
  constructor
  · exact (submit_validation_atomic [MenuEntry.mk 1 "a" "/a" "" none] (some 1)
      "" "/b" "" none (Or.inl rfl)).1
  · exact (submit_validation_atomic [MenuEntry.mk 1 "a" "/a" "" none] none
      "b" "nota-url" "" none (Or.inr (by rfl))).1

/-- C10: a submitted parent id of 0 behaves exactly like an absent parent
id: the new item is appended at the root with the plain `added` outcome and
no warning, even when an item with id 0 exists in the forest. -/
theorem parentId_zero_is_absent (f : List MenuEntry) (eid : Option Int)
    (nombre enlace icono : String)
    (hn : nombre ≠ "") (hv : validateUrl enlace = true) (he : truthy eid = false) :
    handleSubmit f eid nombre enlace icono (some 0) =
      handleSubmit f eid nombre enlace icono none ∧
    handleSubmit f eid nombre enlace icono (some 0) =
      (f ++ [MenuEntry.mk (nextId f) nombre enlace (if icono = "" then "" else icono) none],
        SubmitOutcome.added) := by
  have h0 : truthy (some 0) = false := rfl
  have h1 : truthy none = false := rfl
  constructor <;> simp [handleSubmit, hn, hv, he, h0, h1]

/-- Witness for `parentId_zero_is_absent` on a forest that does contain an
item with id 0. -/
theorem parentId_zero_is_absent_witness :
    handleSubmit [MenuEntry.mk 0 "a" "/a" "" none] none "b" "/b" "" (some 0) =
      ([MenuEntry.mk 0 "a" "/a" "" none, MenuEntry.mk 1 "b" "/b" "" none],
        SubmitOutcome.added) := by
  have h := (parentId_zero_is_absent [MenuEntry.mk 0 "a" "/a" "" none] none "b" "/b" ""
    (by decide) (by rfl) (by rfl)).2
  rw [h]
  rfl

/-- C5 counterexample: in this forest the parent id 0 resolves via
`findById`, yet the submitted item is appended at the root with the plain
`added` outcome (no warning) and the resolved parent keeps an absent
submenu: it does not end with the new entry. -/
theorem insert_counterexample :
    findById 0 [MenuEntry.mk 0 "a" "/a" "" none] = some (MenuEntry.mk 0 "a" "/a" "" none) ∧
    handleSubmit [MenuEntry.mk 0 "a" "/a" "" none] none "b" "/b" "" (some 0) =
      ([MenuEntry.mk 0 "a" "/a" "" none, MenuEntry.mk 1 "b" "/b" "" none],
        SubmitOutcome.added) ∧
    findById 0 (handleSubmit [MenuEntry.mk 0 "a" "/a" "" none] none "b" "/b" "" (some 0)).1 =
      some (MenuEntry.mk 0 "a" "/a" "" none) := by
  refine ⟨by simp [findById], rfl, ?_⟩
  rw [show (handleSubmit [MenuEntry.mk 0 "a" "/a" "" none] none "b" "/b" "" (some 0)).1 =
      [MenuEntry.mk 0 "a" "/a" "" none, MenuEntry.mk 1 "b" "/b" "" none] from rfl]
  simp [findById]

/-- C5 (amended): on the create path with fields passing validation and a
nonzero parent id: when the parent id resolves, the new item is appended as
the last element of the parent submenu (created if absent) and the plain
`added` outcome is shown; when it does not resolve, the item is appended at
the root instead and the non-fatal warning outcome is shown. -/
theorem insert_parent_spec (f : List MenuEntry) (eid : Option Int) (p : Int)
    (nombre enlace icono : String)
    (hp : p ≠ 0) (hn : nombre ≠ "") (hv : validateUrl enlace = true)
    (he : truthy eid = false) :
    (∀ par, findById p f = some par →
      (handleSubmit f eid nombre enlace icono (some p)).2 = SubmitOutcome.added ∧
      findById p (handleSubmit f eid nombre enlace icono (some p)).1 =
        some (par.pushSub
          (.mk (nextId f) nombre enlace (if icono = "" then "" else icono) none)) ∧
      MenuEntry.submenu (par.pushSub
          (.mk (nextId f) nombre enlace (if icono = "" then "" else icono) none)) =
        some ((MenuEntry.submenu par).getD [] ++
          [.mk (nextId f) nombre enlace (if icono = "" then "" else icono) none])) ∧
    (findById p f = none →
      handleSubmit f eid nombre enlace icono (some p) =
        (f ++ [.mk (nextId f) nombre enlace (if icono = "" then "" else icono) none],
          SubmitOutcome.addedParentMissing)) := by
  have ht : truthy (some p) = true := by simp [truthy, hp]
  constructor
  · intro par hpar
    obtain ⟨l1, ha, hf⟩ :=
      (addChild_found p
        (.mk (nextId f) nombre enlace (if icono = "" then "" else icono) none)).2 f par hpar
    have hres : handleSubmit f eid nombre enlace icono (some p) =
        (l1, SubmitOutcome.added) := by
      simp [handleSubmit, hn, hv, he, ht, ha]
    rw [hres]
    refine ⟨rfl, hf, ?_⟩
    cases par with
    | mk pa pb pc pd ps => simp [MenuEntry.pushSub, MenuEntry.submenu]
  · intro h
    have hnoadd : addChild p
        (.mk (nextId f) nombre enlace (if icono = "" then "" else icono) none) f = none :=
      ((addChild_none_iff p _).2 f).mpr h
    simp [handleSubmit, hn, hv, he, ht, hnoadd]

/-- Witness for `insert_parent_spec`: inserting under the resolving parent 1
appends the new item as the single element of its created submenu, and
inserting under the missing parent 9 falls back to the root with the
warning outcome. -/
theorem insert_parent_spec_witness :
    findById 1 (handleSubmit [MenuEntry.mk 1 "a" "/a" "" none] none "b" "/b" "" (some 1)).1 =
      some (MenuEntry.mk 1 "a" "/a" "" (some [MenuEntry.mk 2 "b" "/b" "" none])) ∧
    handleSubmit [MenuEntry.mk 1 "a" "/a" "" none] none "b" "/b" "" (some 9) =
      ([MenuEntry.mk 1 "a" "/a" "" none, MenuEntry.mk 2 "b" "/b" "" none],
        SubmitOutcome.addedParentMissing) := by
  constructor
  · have h := ((insert_parent_spec [MenuEntry.mk 1 "a" "/a" "" none] none 1 "b" "/b" ""
      (by decide) (by decide) (by rfl) (by rfl)).1
      (MenuEntry.mk 1 "a" "/a" "" none) (by simp [findById])).2.1
    simpa [MenuEntry.pushSub] using h
  · have h := (insert_parent_spec [MenuEntry.mk 1 "a" "/a" "" none] none 9 "b" "/b" ""
      (by decide) (by decide) (by rfl) (by rfl)).2 (by simp [findById, findInSub])
    simpa using h

/-- C6 counterexample: id 0 resolves in this forest, yet submitting an edit
for id 0 does not update the item: the handler takes the create branch,
appends a fresh item at the root, and item 0 keeps its old values. -/
theorem update_counterexample :
    findById 0 [MenuEntry.mk 0 "a" "/a" "" none] = some (MenuEntry.mk 0 "a" "/a" "" none) ∧
    handleSubmit [MenuEntry.mk 0 "a" "/a" "" none] (some 0) "b" "/b" "" none =
      ([MenuEntry.mk 0 "a" "/a" "" none, MenuEntry.mk 1 "b" "/b" "" none],
        SubmitOutcome.added) ∧
    findById 0 (handleSubmit [MenuEntry.mk 0 "a" "/a" "" none] (some 0) "b" "/b" "" none).1 =
      some (MenuEntry.mk 0 "a" "/a" "" none) := by
  refine ⟨by simp [findById], rfl, ?_⟩
  rw [show (handleSubmit [MenuEntry.mk 0 "a" "/a" "" none] (some 0) "b" "/b" "" none).1 =
      [MenuEntry.mk 0 "a" "/a" "" none, MenuEntry.mk 1 "b" "/b" "" none] from rfl]
  simp [findById]

/-- C6 (amended): for a nonzero editing id and fields passing validation:
when the id resolves, the edit path overwrites only the `nombre`, `enlace`
and `icon` fields of the matching item, keeping its id and submenu and every
other item of the forest untouched (`UpdateShape`), and `findById` afterwards
returns the updated values; when the id does not resolve, the handler reports
not-found and the forest is unchanged. -/
theorem update_spec (f : List MenuEntry) (i : Int) (nombre enlace icono : String)
    (pid : Option Int) (hi : i ≠ 0) (hn : nombre ≠ "") (hv : validateUrl enlace = true) :
    (findById i f = none →
      handleSubmit f (some i) nombre enlace icono pid = (f, SubmitOutcome.editNotFound)) ∧
    (∀ it, findById i f = some it →
      (handleSubmit f (some i) nombre enlace icono pid).2 = SubmitOutcome.updated ∧
      findById i (handleSubmit f (some i) nombre enlace icono pid).1 =
        some (.mk i nombre enlace (if icono = "" then "" else icono)
          (MenuEntry.submenu it)) ∧
      UpdateShape i nombre enlace (if icono = "" then "" else icono) f
        (handleSubmit f (some i) nombre enlace icono pid).1) := by
  have ht : truthy (some i) = true := by simp [truthy, hi]
  constructor
  · intro h
    have hupd : updateItem i nombre enlace (if icono = "" then "" else icono) f = none :=
      ((updateItem_none_iff i _ _ _).2 f).mpr h
    simp [handleSubmit, hn, hv, ht, hupd]
  · intro it hit
    obtain ⟨l1, ha, hf⟩ :=
      (updateItem_found i nombre enlace (if icono = "" then "" else icono)).2 f it hit
    have hshape :=
      (updateItem_realizes_shape i nombre enlace (if icono = "" then "" else icono)).2 f l1 ha
    have hres : handleSubmit f (some i) nombre enlace icono pid =
        (l1, SubmitOutcome.updated) := by
      simp [handleSubmit, hn, hv, ht, ha]
    rw [hres]
    exact ⟨rfl, hf, hshape⟩

/-- Witness for `update_spec`: editing the resolving id 1 updates its fields
in place, and editing the missing id 9 reports not-found and changes
nothing. -/
theorem update_spec_witness :
    findById 1 (handleSubmit [MenuEntry.mk 1 "a" "/a" "" none] (some 1) "b" "/b" "x" none).1 =
      some (MenuEntry.mk 1 "b" "/b" "x" none) ∧
    handleSubmit [MenuEntry.mk 1 "a" "/a" "" none] (some 9) "b" "/b" "x" none =
      ([MenuEntry.mk 1 "a" "/a" "" none], SubmitOutcome.editNotFound) := by
  constructor
  · have h := ((update_spec [MenuEntry.mk 1 "a" "/a" "" none] 1 "b" "/b" "x" none
      (by decide) (by decide) (by rfl)).2
      (MenuEntry.mk 1 "a" "/a" "" none) (by simp [findById])).2.1
    simpa [MenuEntry.submenu] using h
  · exact (update_spec [MenuEntry.mk 1 "a" "/a" "" none] 9 "b" "/b" "x" none
      (by decide) (by decide) (by rfl)).1 (by simp [findById, findInSub])

/-- C9: every item created through the create path of the submit handler
starts with no children: right after the submit, looking up the freshly
allocated id returns the new item with an absent submenu, whether it was
appended at the root, under a resolved parent, or at the root after a failed
parent lookup. -/
theorem new_entry_no_children (f : List MenuEntry) (eid : Option Int)
    (nombre enlace icono : String) (pid : Option Int)
    (hn : nombre ≠ "") (hv : validateUrl enlace = true) (he : truthy eid = false) :
    findById (nextId f) (handleSubmit f eid nombre enlace icono pid).1 =
      some (.mk (nextId f) nombre enlace (if icono = "" then "" else icono) none) := by
  have hfresh : findById (nextId f) f = none := findById_nextId_none f
  have happrt : findById (nextId f)
      (f ++ [MenuEntry.mk (nextId f) nombre enlace (if icono = "" then "" else icono) none]) =
      some (.mk (nextId f) nombre enlace (if icono = "" then "" else icono) none) := by
    rw [findById_append, hfresh]
    simp [findById]
  by_cases hp : truthy pid = true
  · cases pid with
    | none => simp [truthy] at hp
    | some p =>
      cases hadd : addChild p
          (.mk (nextId f) nombre enlace (if icono = "" then "" else icono) none) f with
      | none =>
        have hres : (handleSubmit f eid nombre enlace icono (some p)).1 =
            f ++ [MenuEntry.mk (nextId f) nombre enlace
              (if icono = "" then "" else icono) none] := by
          simp [handleSubmit, hn, hv, he, hp, hadd]
        rw [hres]
        exact happrt
      | some f1 =>
        have hres : (handleSubmit f eid nombre enlace icono (some p)).1 = f1 := by
          simp [handleSubmit, hn, hv, he, hp, hadd]
        rw [hres]
        have hmem : MenuEntry.id
            (MenuEntry.mk (nextId f) nombre enlace (if icono = "" then "" else icono) none) ∉
            forestIds f := by
          simp only [MenuEntry.id]
          exact ((findById_eq_none_iff (nextId f)).2 f).mp hfresh
        have h := (addChild_finds_child p
          (.mk (nextId f) nombre enlace (if icono = "" then "" else icono) none)).2 f f1
          hadd hmem
        simpa [MenuEntry.id] using h
  · have hp2 : truthy pid = false := by
      cases h : truthy pid
      · rfl
      · exact absurd h hp
    have hres : (handleSubmit f eid nombre enlace icono pid).1 =
        f ++ [MenuEntry.mk (nextId f) nombre enlace
          (if icono = "" then "" else icono) none] := by
      simp [handleSubmit, hn, hv, he, hp2]
    rw [hres]
    exact happrt

/-- Witness for `new_entry_no_children`: the item created under parent 1 has
id 2 and no submenu. -/
theorem new_entry_no_children_witness :
    findById 2 (handleSubmit [MenuEntry.mk 1 "a" "/a" "" none] none "b" "/b" "" (some 1)).1 =
      some (MenuEntry.mk 2 "b" "/b" "" none) := by
  have h := new_entry_no_children [MenuEntry.mk 1 "a" "/a" "" none] none "b" "/b" "" (some 1)
    (by decide) (by rfl) (by rfl)
  simpa using h

/-- Decoding inverts encoding, for every item and every forest. -/
theorem jsonToMenu_menuToJson :
    (∀ x : MenuEntry, jsonToEntry (entryToJson x) = some x) ∧
    (∀ l : List MenuEntry, jsonToMenu (menuToJson l) = some l) := by
  apply menuInduction
  · intro j n e ic
    simp [entryToJson, jsonToEntry]
  · intro j n e ic l hl
    simp [entryToJson, jsonToEntry, hl]
  · simp [menuToJson, jsonToMenu]
  · intro x xs hx hxs
    simp [menuToJson, jsonToMenu, hx, hxs]

/-- C8: serializing the forest as the pretty-printed `{ menu: ... }`
document and parsing the result back yields a forest structurally equal to
the original by id, nombre, enlace, icon and submenu, at every depth. -/
theorem serialize_roundtrip (f : List MenuEntry) :
    parseDoc (serializeDoc f) = some f := by
  simp only [serializeDoc, parseDoc]
  exact jsonToMenu_menuToJson.2 f

/-- Stripping a lowercase-ASCII literal succeeds exactly on the inputs whose
prefix lowercases to it. -/
theorem ciStrip_iff (p : List Char) : ∀ (cs r : List Char),
    ciStrip p cs = some r ↔ ∃ pre, cs = pre ++ r ∧ pre.map Char.toLower = p := by
  induction p with
  | nil =>
    intro cs r
    constructor
    · intro h
      refine ⟨[], ?_, rfl⟩
      simpa [ciStrip] using h
    · rintro ⟨pre, hcs, hmap⟩
      have : pre = [] := by simpa using hmap
      subst this
      simpa [ciStrip] using hcs
  | cons q ps ih =>
    intro cs r
    cases cs with
    | nil =>
      simp only [ciStrip]
      constructor
      · intro h; cases h
      · rintro ⟨pre, hcs, hmap⟩
        cases pre with
        | nil => simp at hmap
        | cons a b => simp at hcs
    | cons c cs2 =>
      by_cases hq : c.toLower = q
      · rw [show ciStrip (q :: ps) (c :: cs2) = ciStrip ps cs2 by simp [ciStrip, hq]]
        rw [ih cs2 r]
        constructor
        · rintro ⟨pre2, hcs, hmap⟩
          exact ⟨c :: pre2, by simp [hcs], by simp [hmap, hq]⟩
        · rintro ⟨pre, hcs, hmap⟩
          cases pre with
          | nil => simp at hmap
          | cons a pre2 =>
            simp only [List.cons_append, List.cons.injEq] at hcs
            simp only [List.map_cons, List.cons.injEq] at hmap
            exact ⟨pre2, hcs.2, hmap.2⟩
      · rw [show ciStrip (q :: ps) (c :: cs2) = none by simp [ciStrip, hq]]
        constructor
        · intro h; cases h
        · rintro ⟨pre, hcs, hmap⟩
          cases pre with
          | nil => simp at hmap
          | cons a pre2 =>
            simp only [List.cons_append, List.cons.injEq] at hcs
            simp only [List.map_cons, List.cons.injEq] at hmap
            exact absurd (show c.toLower = q by rw [hcs.1]; exact hmap.1) hq

theorem dotPlus_iff (r : List Char) :
    dotPlus r = true ↔ ∃ c r2, r = c :: r2 ∧ isLineTerm c = false := by
  cases r with
  | nil => simp [dotPlus]
  | cons c r2 => simp [dotPlus]

theorem validateUrl_slash (s : String) (rest : List Char) (h : s.data = '/' :: rest) :
    validateUrl s = dotPlus rest := by
  have hne : s ≠ "" := by
    intro hc
    subst hc
    simp at h
  rw [validateUrl, if_neg hne, h]
  split
  · rename_i rest2 heq
    injection heq with h1 h2
    rw [h2]
  · rename_i hmiss
    exact absurd rfl (hmiss rest)

theorem validateUrl_nonslash (s : String) (c0 : Char) (cs0 : List Char)
    (h : s.data = c0 :: cs0) (hc : c0 ≠ '/') :
    validateUrl s =
      (match ciStrip "https://".data (c0 :: cs0) with
       | some rest => dotPlus rest
       | none =>
         match ciStrip "http://".data (c0 :: cs0) with
         | some rest => dotPlus rest
         | none => false) := by
  have hne : s ≠ "" := by
    intro hc2
    subst hc2
    simp at h
  rw [validateUrl, if_neg hne, h]
  split
  · rename_i rest2 heq
    injection heq with h1 h2
    exact absurd h1 hc
  · rfl

theorem validateUrl_iff (s : String) :
    validateUrl s = true ↔
      ((∃ c r, s.data = '/' :: c :: r ∧ isLineTerm c = false) ∨
       (∃ pre c r, s.data = pre ++ c :: r ∧ pre.map Char.toLower = "http://".data ∧
          isLineTerm c = false) ∨
       (∃ pre c r, s.data = pre ++ c :: r ∧ pre.map Char.toLower = "https://".data ∧
          isLineTerm c = false)) := by
  cases hs : s.data with
  | nil =>
    have hse : s = "" := String.ext (by rw [hs])
    constructor
    · intro h
      rw [validateUrl, if_pos hse] at h
      cases h
    · rintro (⟨c, r, hcr, hl⟩ | ⟨pre, c, r, hcr, hmap, hl⟩ | ⟨pre, c, r, hcr, hmap, hl⟩) <;>
        simp at hcr
  | cons c0 cs0 =>
    by_cases hc0 : c0 = '/'
    · subst hc0
      rw [validateUrl_slash s cs0 hs]
      constructor
      · intro h
        obtain ⟨c, r2, hr, hl⟩ := (dotPlus_iff cs0).mp h
        exact Or.inl ⟨c, r2, by rw [hr], hl⟩
      · rintro (⟨c, r, hcr, hl⟩ | ⟨pre, c, r, hcr, hmap, hl⟩ | ⟨pre, c, r, hcr, hmap, hl⟩)
        · injection hcr with h1 h2
          rw [h2]
          simp [dotPlus, hl]
        · cases pre with
          | nil => simp at hmap
          | cons a pre2 =>
            simp only [List.cons_append, List.cons.injEq] at hcr
            have ha : a.toLower = 'h' := by
              rw [show ("http://".data) = ['h','t','t','p',':','/','/'] from rfl] at hmap
              simp only [List.map_cons, List.cons.injEq] at hmap
              exact hmap.1
            rw [← hcr.1] at ha
            exact absurd ha (by decide)
        · cases pre with
          | nil => simp at hmap
          | cons a pre2 =>
            simp only [List.cons_append, List.cons.injEq] at hcr
            have ha : a.toLower = 'h' := by
              rw [show ("https://".data) = ['h','t','t','p','s',':','/','/'] from rfl] at hmap
              simp only [List.map_cons, List.cons.injEq] at hmap
              exact hmap.1
            rw [← hcr.1] at ha
            exact absurd ha (by decide)
    · rw [validateUrl_nonslash s c0 cs0 hs hc0]
      cases h1 : ciStrip "https://".data (c0 :: cs0) with
      | some rest =>
        obtain ⟨pre, hdec, hmap⟩ := (ciStrip_iff _ _ _).mp h1
        constructor
        · intro h
          obtain ⟨c, r2, hr, hl⟩ := (dotPlus_iff rest).mp h
          refine Or.inr (Or.inr ⟨pre, c, r2, ?_, hmap, hl⟩)
          rw [hdec, hr]
        · rintro (⟨c, r, hcr, hl⟩ | ⟨pre2, c, r, hcr, hmap2, hl⟩ | ⟨pre2, c, r, hcr, hmap2, hl⟩)
          · injection hcr with ha hb
            exact absurd ha hc0
          · have hx : List.map Char.toLower (pre ++ rest) =
                List.map Char.toLower (pre2 ++ (c :: r)) := by
              rw [← hdec, ← hcr]
            rw [List.map_append, List.map_append, hmap, hmap2] at hx
            rw [show ("https://".data) = ['h','t','t','p','s',':','/','/'] from rfl,
                show ("http://".data) = ['h','t','t','p',':','/','/'] from rfl] at hx
            simp at hx
          · have heq : pre = pre2 ∧ rest = c :: r := by
              apply List.append_inj
              · rw [← hdec, ← hcr]
              · have ha : pre.length = 8 := by
                  have h0 := congrArg List.length hmap
                  simpa using h0
                have hb : pre2.length = 8 := by
                  have h0 := congrArg List.length hmap2
                  simpa using h0
                rw [ha, hb]
            rw [heq.2]
            simp [dotPlus, hl]
      | none =>
        cases h2 : ciStrip "http://".data (c0 :: cs0) with
        | some rest =>
          obtain ⟨pre, hdec, hmap⟩ := (ciStrip_iff _ _ _).mp h2
          constructor
          · intro h
            obtain ⟨c, r2, hr, hl⟩ := (dotPlus_iff rest).mp h
            refine Or.inr (Or.inl ⟨pre, c, r2, ?_, hmap, hl⟩)
            rw [hdec, hr]
          · rintro (⟨c, r, hcr, hl⟩ | ⟨pre2, c, r, hcr, hmap2, hl⟩ | ⟨pre2, c, r, hcr, hmap2, hl⟩)
            · injection hcr with ha hb
              exact absurd ha hc0
            · have heq : pre = pre2 ∧ rest = c :: r := by
                apply List.append_inj
                · rw [← hdec, ← hcr]
                · have ha : pre.length = 7 := by
                    have h0 := congrArg List.length hmap
                    simpa using h0
                  have hb : pre2.length = 7 := by
                    have h0 := congrArg List.length hmap2
                    simpa using h0
                  rw [ha, hb]
              rw [heq.2]
              simp [dotPlus, hl]
            · have hsome : ciStrip "https://".data (c0 :: cs0) = some (c :: r) :=
                (ciStrip_iff _ _ _).mpr ⟨pre2, hcr, hmap2⟩
              rw [h1] at hsome
              cases hsome
        | none =>
          constructor
          · intro h
            simp at h
          · rintro (⟨c, r, hcr, hl⟩ | ⟨pre2, c, r, hcr, hmap2, hl⟩ | ⟨pre2, c, r, hcr, hmap2, hl⟩)
            · injection hcr with ha hb
              exact absurd ha hc0
            · have hsome : ciStrip "http://".data (c0 :: cs0) = some (c :: r) :=
                (ciStrip_iff _ _ _).mpr ⟨pre2, hcr, hmap2⟩
              rw [h2] at hsome
              cases hsome
            · have hsome : ciStrip "https://".data (c0 :: cs0) = some (c :: r) :=
                (ciStrip_iff _ _ _).mpr ⟨pre2, hcr, hmap2⟩
              rw [h1] at hsome
              cases hsome

/-- C2 counterexample: the one-character string containing only a slash is
non-empty and begins with a slash, yet `validateUrl` rejects it, because the
`.+` of the pattern demands at least one character after the prefix. -/
theorem validateHref_counterexample :
    validateUrl "/" = false ∧ "/" ≠ "" ∧ "/".data = ['/'] :=
  ⟨by decide, by decide, rfl⟩

/-- C2 (amended): `validateUrl` returns true exactly for the strings that
begin with a slash, or ASCII case-insensitively with the scheme prefix of
`http://` or `https://`, followed by at least one further character that is
not a JS line terminator; in particular it accepts "/a", "http://x" and
"https://x", rejects "", "ftp://x" and "x", and also rejects the bare "/"
and "http://". -/
theorem validateHref_charact :
    (∀ s : String, validateUrl s = true ↔
      ((∃ c r, s.data = '/' :: c :: r ∧ isLineTerm c = false) ∨
       (∃ pre c r, s.data = pre ++ c :: r ∧ pre.map Char.toLower = "http://".data ∧
          isLineTerm c = false) ∨
       (∃ pre c r, s.data = pre ++ c :: r ∧ pre.map Char.toLower = "https://".data ∧
          isLineTerm c = false))) ∧
    validateUrl "/a" = true ∧ validateUrl "http://x" = true ∧
    validateUrl "HTTPS://x" = true ∧ validateUrl "https://x" = true ∧
    validateUrl "" = false ∧ validateUrl "ftp://x" = false ∧
    validateUrl "x" = false ∧ validateUrl "/" = false ∧
    validateUrl "http://" = false := by
  refine ⟨validateUrl_iff, ?_, ?_, ?_, ?_, ?_, ?_, ?_, ?_, ?_⟩ <;> decide
